import Mathlib

/-!
Verification development for the syncit sync controller.

The Rust source is shallowly embedded as follows.

Bytes are Nat; file contents and buffers are List Nat. SHA-256 digests are
modeled as the exact byte sequence that was fed to the hasher between a
reset and a finalize: every claim in scope is about WHICH bytes a hasher
consumes or about digest equality, and SHA-256 is injective on the inputs
of interest, so the message itself is a faithful stand-in for its digest.
A hasher is therefore the list of bytes fed so far; update appends,
finalize returns the accumulated list, and finalize_reset returns it and
empties the accumulator.

Machine integers (u64 offsets and lengths, u32 generations) are modeled as
Nat; the programs in scope never wrap them (a generation bump would panic
in a debug build long before u32 overflow, hence never persist a wrapped
value).

The filesystem of one sync directory is an association list from filename
to content. Temporary files (random-named, auto-unlinked on drop) only
become visible when renamed onto a target, so they are modeled as local
values; conflict files are inserted under their derived name. Async
suspension and the concurrency of positional writes are sequentialized:
the download stream is consumed in order, and the claims in scope do not
depend on the completion order of disjoint positional writes.
-/

/-- Byte strings: file contents, buffers and modeled digests. -/
abbrev Bytes := List Nat

/-- Model of a SHA-256 digest: the bytes fed to the hasher (see header). -/
abbrev Sha256sum := Bytes

/-- The all-zero 32-byte digest used by the source as the in-band marker for
deleted entries (hash_sum: [0; 32]). -/
def zeroHash : Sha256sum := List.replicate 32 0

/-- BLOCK_SIZE = 4 MiB, from src/index/mod.rs. -/
def BLOCK_SIZE : Nat := 4 * 1024 * 1024

/-- Block of index/mod.rs: offset, len and per-block hash. -/
structure Block where
  offset : Nat
  len : Nat
  hash_sum : Sha256sum
deriving DecidableEq

/-- BlockChain of index/mod.rs. -/
structure BlockChain where
  block_size : Nat
  blocks : List Block
deriving DecidableEq

/-- FileKind of index/mod.rs. -/
inductive FileKind where
  | file
  | symlink
deriving DecidableEq

/-- FileDetail of index/mod.rs. -/
structure FileDetail where
  gen : Nat
  hash_sum : Sha256sum
  block_chain : Option BlockChain
  deleted : Bool
deriving DecidableEq

/-- IndexFile of index/mod.rs; update_time (SystemTime) is modeled as a Nat
tick count, update_by as a String. -/
structure IndexFile where
  filename : String
  kind : FileKind
  detail : FileDetail
  previous_details : List FileDetail
  update_time : Nat
  update_by : String
deriving DecidableEq

/-!
Hashing, from hash_file in src/sync_control/mod.rs (the copy used by the
handlers; src/ext/hash.rs is byte-for-byte the same function).

The source allocates one BLOCK_SIZE zeroed buffer, repeatedly calls
read_fill (which reads exactly min(BLOCK_SIZE, bytes remaining) bytes into
the front of the buffer and leaves the tail untouched), then feeds the
ENTIRE buffer to both the whole-file hasher and the block hasher, takes
finalize_reset of the block hasher as the hash of a block whose len is the
number of bytes just read, and stops after the first short read.

hashFileGo is parameterized by the block size so that theorems can be
instantiated and evaluated at small sizes; the program itself is the
BLOCK_SIZE instance hash_file below. It returns the pair of
(bytes fed to the whole-file hasher, blocks emitted). The disjunct B = 0
in the stopping condition only makes the generalized recursion total; the
program runs it at B = BLOCK_SIZE > 0 where it is never taken.
-/
def hashFileLoop : Nat → Nat → List Nat → List Nat → Nat → List Nat × List Block
  | 0, B, data, buf, offset =>
      let n := min B data.length
      let newBuf := data.take n ++ buf.drop n
      (newBuf, [⟨offset, n, newBuf⟩])
  | fuel + 1, B, data, buf, offset =>
      let n := min B data.length
      let newBuf := data.take n ++ buf.drop n
      if n < B ∨ B = 0 then
        (newBuf, [⟨offset, n, newBuf⟩])
      else
        let rest := hashFileLoop fuel B (data.drop n) newBuf (offset + n)
        (newBuf ++ rest.1, ⟨offset, n, newBuf⟩ :: rest.2)

/-- The loop of hash_file; the fuel of hashFileLoop is only a structural
termination device, shown fuel-irrelevant below (hashFileLoop_congr). -/
def hashFileGo (B : Nat) (data buf : List Nat) (offset : Nat) :
    List Nat × List Block :=
  hashFileLoop (data.length + 1) B data buf offset

/-- hash_file with the block size as a parameter (see hashFileGo). -/
def hashFileWith (B : Nat) (data : List Nat) : Sha256sum × BlockChain :=
  let r := hashFileGo B data (List.replicate B 0) 0
  (r.1, ⟨B, r.2⟩)

/-- hash_file of src/sync_control/mod.rs: the program instance at
BLOCK_SIZE. -/
def hash_file (data : List Nat) : Sha256sum × BlockChain :=
  hashFileWith BLOCK_SIZE data

/-!
Index store and filesystem models.

The index is the list of IndexFile rows; a transaction guard is a local
copy of that list, committed by replacing the store. The sync directory is
an association list from filename to file content.
-/

/-- One sync directory: filename to content. -/
abbrev Fs := List (String × Bytes)

/-- get_file of the index guard (lookup by filename). -/
def getFile (idx : List IndexFile) (name : String) : Option IndexFile :=
  idx.find? (fun f => f.filename = name)

/-- create_file of the index guard. -/
def createFile (idx : List IndexFile) (f : IndexFile) : List IndexFile :=
  idx ++ [f]

/-- update_file of the index guard: replaces the row with the same
filename. -/
def updateFile (idx : List IndexFile) (f : IndexFile) : List IndexFile :=
  idx.map (fun g => if g.filename = f.filename then f else g)

/-- Read a file of the sync dir (File::open plus reading it); none models
the NotFound error. -/
def fsRead (fs : Fs) (name : String) : Option Bytes :=
  (fs.find? (fun p => p.1 = name)).map Prod.snd

/-- Remove a file from the sync dir. -/
def fsErase (fs : Fs) (name : String) : Fs :=
  fs.filter (fun p => ¬ p.1 = name)

/-- Create or replace a file of the sync dir (the rename of a temp file
onto a target path, or writing a brand new file). -/
def fsWrite (fs : Fs) (name : String) (content : Bytes) : Fs :=
  fsErase fs name ++ [(name, content)]

/-- set_len of a file: truncate or zero-extend to the given size. -/
def setLen (content : Bytes) (size : Nat) : Bytes :=
  content.take size ++ List.replicate (size - content.length) 0

/-- write_at: positional write of data at an offset (holes are
zero-filled). -/
def writeAt (content : Bytes) (offset : Nat) (data : Bytes) : Bytes :=
  content.take offset ++ List.replicate (offset - content.length) 0 ++
    data ++ content.drop (offset + data.length)

/-- I/O error kinds distinguished by the handlers: ErrorKind::NotFound
versus everything else (including the anyhow errors for a missing block
chain and the sync-all partition invariant violations). -/
inductive IoErrorKind where
  | notFound
  | other
deriving DecidableEq

/-- DownloadBlockRequest of src/transfer/mod.rs (dir_id modeled as Nat). -/
structure DownloadBlockRequest where
  dir_id : Nat
  filename : String
  offset : Nat
  len : Nat
  hash_sum : Sha256sum
deriving DecidableEq

/-- DownloadBlock of src/transfer/mod.rs. -/
structure DownloadBlock where
  offset : Nat
  data : Bytes
deriving DecidableEq

/-- Environment of one handler run: identities, clocks and the download
transfer, which maps a request list to the stream of optional blocks its
BlockStream yields (in stream order; none is the could-not-fulfil
marker). -/
structure SyncEnv where
  dirId : Nat
  userId : String
  now : Nat
  nowStr : String
  dl : List DownloadBlockRequest → List (Option DownloadBlock)

/-- State threaded through the controller: committed index plus sync
directory contents. -/
structure SyncState where
  index : List IndexFile
  fs : Fs
deriving DecidableEq

/-- blocks_to_download_block_requests of rumors_event_handler/mod.rs. -/
def blocksToDownloadBlockRequests (dirId : Nat) (filename : String)
    (blocks : List Block) : List DownloadBlockRequest :=
  blocks.map (fun b => ⟨dirId, filename, b.offset, b.len, b.hash_sum⟩)

/-- compare_blocks of rumors_event_handler/mod.rs: zip_longest of the
remote (left) and local (right) chains, requesting every position where the
blocks differ in any field, every trailing remote block, and nothing for
trailing local blocks. The itertools zip_longest plus filter_map is
rendered as direct recursion over the two lists. -/
def compareBlocks (dirId : Nat) (filename : String) :
    List Block → List Block → List DownloadBlockRequest
  | [], _ => []
  | r :: rs, [] =>
      ⟨dirId, filename, r.offset, r.len, r.hash_sum⟩ :: compareBlocks dirId filename rs []
  | r :: rs, l :: ls =>
      if r = l then compareBlocks dirId filename rs ls
      else ⟨dirId, filename, r.offset, r.len, r.hash_sum⟩ :: compareBlocks dirId filename rs ls

/-- sync_file of rumors_event_handler/mod.rs: consume the block stream; on
the first none element return cancellation (the queued positional writes
are never executed because try_collect is not reached); otherwise apply
every write and return the resulting content. The source issues the writes
concurrently and joins them; the claims in scope never overlap blocks, so
stream order is used. -/
def syncFile (content : Bytes) : List (Option DownloadBlock) → Option Bytes
  | [] => some content
  | none :: _ => none
  | some b :: rest => syncFile (writeAt content b.offset b.data) rest

/-- Conflict file name built by create_conflict_file_from: the original
name, a dot, the formatted UTC+8 timestamp, and the .conflict suffix. -/
def conflictFileName (filename nowStr : String) : String :=
  filename ++ "." ++ nowStr ++ ".conflict"

/-- create_conflict_file_from: open the conflict path with create_new
(failing when it already exists) and byte-copy the origin content into
it. -/
def createConflictFileFrom (fs : Fs) (origin : Bytes) (filename nowStr : String) :
    Except IoErrorKind Fs :=
  if (fsRead fs (conflictFileName filename nowStr)).isSome then
    .error .other
  else
    .ok (fsWrite fs (conflictFileName filename nowStr) origin)

/-!
Rumors event handler, from src/sync_control/rumors_event_handler/mod.rs.

Each function returns the committed state together with the outcome of the
Rust Result: ok carries the boolean that handle_rumor returns (true means
the rumor changed local state and is rebroadcast), err a propagated error.
A guard that is dropped without commit leaves the index unchanged, so the
error and cancel returns carry the pre-rumor index.
-/

/-- Outcome of handle_rumor for one rumor. -/
inductive RumorOutcome where
  | ok (isNew : Bool)
  | err (e : IoErrorKind)
deriving DecidableEq

/-- SendRumors of src/sync_control/mod.rs (peer ids modeled as Nat). -/
structure SendRumors where
  dir_id : Nat
  rumors : List IndexFile
  except : Option Nat
deriving DecidableEq

/-- The branch of handle_rumor for a filename with no local index entry
(rumors_event_handler/mod.rs lines 94 to 186): create the entry; for a
deleted rumor remove the on-disk file ignoring NotFound and commit; else
download every block of the remote chain into a fresh temp file of the
chain size, abort with non-new on cancellation, and otherwise rename the
temp file onto the target and commit. -/
def handleRumorNoLocal (env : SyncEnv) (st : SyncState) (remote : IndexFile) :
    SyncState × RumorOutcome :=
  let guard := createFile st.index remote
  if remote.detail.deleted then
    ({ index := guard, fs := fsErase st.fs remote.filename }, .ok true)
  else
    match remote.detail.block_chain with
    | none => (st, .err .other)
    | some bc =>
      let fileSize := (bc.blocks.map (fun b => b.len)).sum
      let temp := setLen [] fileSize
      let reqs := blocksToDownloadBlockRequests env.dirId remote.filename bc.blocks
      match syncFile temp (env.dl reqs) with
      | none => (st, .ok false)
      | some content =>
        ({ index := guard, fs := fsWrite st.fs remote.filename content }, .ok true)

/-- handle_gen_eq of rumors_event_handler/mod.rs. Note two source facts
this mirrors: in the remote-newer deleted branch the remove_file error is
propagated with the try operator, including NotFound; and in the
remote-newer non-deleted branch the boolean returned by sync_file is
discarded, so a canceled download still renames the temp file (whose
queued writes never ran) onto the target and commits. -/
def handleGenEq (env : SyncEnv) (st : SyncState) (remote local_ : IndexFile) :
    SyncState × RumorOutcome :=
  if remote = local_ then (st, .ok false)
  else if remote.update_time < local_.update_time then (st, .ok false)
  else if remote.update_time > local_.update_time then
    let guard := updateFile st.index remote
    if remote.detail.deleted then
      match fsRead st.fs remote.filename with
      | none => (st, .err .notFound)
      | some _ =>
        ({ index := guard, fs := fsErase st.fs remote.filename }, .ok true)
    else
      let afterConflict : Except IoErrorKind Fs :=
        if ¬ local_.detail.deleted then
          match fsRead st.fs remote.filename with
          | none => .error .notFound
          | some origin =>
            createConflictFileFrom st.fs origin remote.filename env.nowStr
        else .ok st.fs
      match afterConflict with
      | .error e => (st, .err e)
      | .ok fs1 =>
        match remote.detail.block_chain with
        | none => ({ index := st.index, fs := fs1 }, .err .other)
        | some bc =>
          let fileSize := (bc.blocks.map (fun b => b.len)).sum
          let temp := setLen [] fileSize
          let reqs := blocksToDownloadBlockRequests env.dirId remote.filename bc.blocks
          let content :=
            match syncFile temp (env.dl reqs) with
            | none => temp
            | some c => c
          ({ index := guard, fs := fsWrite fs1 remote.filename content }, .ok true)
  else (st, .ok false)

/-- handle_remote_is_latest of rumors_event_handler/mod.rs. The
fast-forward branch applies when some remote previous detail matches the
local current detail by gen and hash. Source facts mirrored here: on the
fast-forward non-deleted branch the target file is opened without a
NotFound downgrade and its bytes are copied into the temp file before
set_len; the sync_file boolean is discarded on both the fast-forward and
the conflict branch; and the conflict branch never calls update_file, so
it commits an unmodified guard while still renaming the downloaded temp
file onto the target. -/
def handleRemoteIsLatest (env : SyncEnv) (st : SyncState) (remote local_ : IndexFile) :
    SyncState × RumorOutcome :=
  if remote.previous_details.any
      (fun d => d.gen = local_.detail.gen ∧ d.hash_sum = local_.detail.hash_sum) then
    let guard := updateFile st.index remote
    if remote.detail.deleted then
      ({ index := guard, fs := fsErase st.fs remote.filename }, .ok true)
    else
      match fsRead st.fs remote.filename with
      | none => (st, .err .notFound)
      | some origin =>
        match remote.detail.block_chain with
        | none => (st, .err .other)
        | some bc =>
          let fileSize := (bc.blocks.map (fun b => b.len)).sum
          let temp := setLen origin fileSize
          let reqs :=
            match local_.detail.block_chain with
            | none => blocksToDownloadBlockRequests env.dirId remote.filename bc.blocks
            | some lbc => compareBlocks env.dirId remote.filename bc.blocks lbc.blocks
          let content :=
            match syncFile temp (env.dl reqs) with
            | none => temp
            | some c => c
          ({ index := guard, fs := fsWrite st.fs remote.filename content }, .ok true)
  else
    match fsRead st.fs remote.filename with
    | none => (st, .err .notFound)
    | some origin =>
      match createConflictFileFrom st.fs origin remote.filename env.nowStr with
      | .error e => (st, .err e)
      | .ok fs1 =>
        match remote.detail.block_chain with
        | none => ({ index := st.index, fs := fs1 }, .err .other)
        | some bc =>
          let fileSize := (bc.blocks.map (fun b => b.len)).sum
          let temp := setLen [] fileSize
          let reqs := blocksToDownloadBlockRequests env.dirId remote.filename bc.blocks
          let content :=
            match syncFile temp (env.dl reqs) with
            | none => temp
            | some c => c
          ({ index := st.index, fs := fsWrite fs1 remote.filename content }, .ok true)

/-- handle_rumor of rumors_event_handler/mod.rs: open a guard, dispatch on
the presence of a local entry and the comparison of generations. The
local-newer arm (handle_local_is_latest) only logs and returns non-new. -/
def handleRumor (env : SyncEnv) (st : SyncState) (remote : IndexFile) :
    SyncState × RumorOutcome :=
  match getFile st.index remote.filename with
  | none => handleRumorNoLocal env st remote
  | some local_ =>
    if local_.detail.gen < remote.detail.gen then
      handleRemoteIsLatest env st remote local_
    else if local_.detail.gen = remote.detail.gen then
      handleGenEq env st remote local_
    else
      (st, .ok false)

/-- Result of handle_rumors_event: either the optional SendRumors batch
that was pushed to the rumor sink (none when no rumor was new), or the
propagated error of the first failing rumor, in which case nothing was
sent. -/
inductive BatchResult where
  | ok (sent : Option SendRumors)
  | err (e : IoErrorKind)
deriving DecidableEq

/-- The loop of handle_rumors_event: handle each rumor in order, collect
the rumors that returned new, abort the whole batch on the first error,
and finally send the collected rumors to everyone but the sender when the
collection is non-empty. -/
def handleRumorsEventGo (env : SyncEnv) (sender : Nat) (st : SyncState) :
    List IndexFile → List IndexFile → SyncState × BatchResult
  | [], acc =>
    if acc.isEmpty then (st, .ok none)
    else (st, .ok (some ⟨env.dirId, acc, some sender⟩))
  | r :: rest, acc =>
    match handleRumor env st r with
    | (st', .err e) => (st', .err e)
    | (st', .ok isNew) =>
      handleRumorsEventGo env sender st' rest (if isNew then acc ++ [r] else acc)

/-- handle_rumors_event of rumors_event_handler/mod.rs. -/
def handleRumorsEvent (env : SyncEnv) (sender : Nat) (st : SyncState)
    (rumors : List IndexFile) : SyncState × BatchResult :=
  handleRumorsEventGo env sender st rumors []

/-!
Watch event handler, from src/sync_control/watch_event_handler/mod.rs.

Events act on the index only (the watcher reports changes already on
disk); each event runs in its own guard which is committed before the
next. The handlers are total here because every I/O error they can meet in
this model is a NotFound on File::open, which each of them catches and
turns into a non-error branch. They are parameterized by the hashing block
size B the way hashFileWith is; the program uses B = BLOCK_SIZE.
-/

/-- WatchEvent of src/file_event_produce/mod.rs. -/
inductive WatchEvent where
  | add (name : String)
  | modify (name : String)
  | rename (oldName newName : String)
  | delete (name : String)
deriving DecidableEq

/-- The gen bump shared by every handler: replace the detail, strip the
block chain from the old detail and append it to previous_details. The
watch event handler keeps update_time and update_by unchanged; the
sync-all handler overwrites them separately. -/
def bumpTo (f : IndexFile) (newDetail : FileDetail) : IndexFile :=
  { f with
    detail := newDetail,
    previous_details :=
      f.previous_details ++ [{ f.detail with block_chain := none }] }

/-- The deleted detail written by every delete-style bump: gen + 1, the
all-zero marker hash, no chain, deleted set. -/
def deletedDetail (f : IndexFile) : FileDetail :=
  ⟨f.detail.gen + 1, zeroHash, none, true⟩

/-- handle_add_watch_event: when the file does not exist the event is
ignored outright (the NotFound branch returns before the index is even
consulted); otherwise hash it and create a gen 1 entry, ignore when a
non-deleted entry already has the same hash, else bump. -/
def handleAddWatchEvent (env : SyncEnv) (B : Nat) (idx : List IndexFile)
    (fs : Fs) (name : String) : List IndexFile × Option IndexFile :=
  match fsRead fs name with
  | none => (idx, none)
  | some content =>
    let hb := hashFileWith B content
    match getFile idx name with
    | none =>
      let f : IndexFile :=
        ⟨name, .file, ⟨1, hb.1, some hb.2, false⟩, [], env.now, env.userId⟩
      (createFile idx f, some f)
    | some f =>
      if ¬ f.detail.deleted ∧ f.detail.hash_sum = hb.1 then (idx, none)
      else
        let nf := bumpTo f ⟨f.detail.gen + 1, hb.1, some hb.2, false⟩
        (updateFile idx nf, some nf)

/-- handle_modify_watch_event: like add when the file exists; when it does
not, a non-deleted index entry is bumped to deleted, otherwise the event
is ignored. -/
def handleModifyWatchEvent (env : SyncEnv) (B : Nat) (idx : List IndexFile)
    (fs : Fs) (name : String) : List IndexFile × Option IndexFile :=
  match fsRead fs name with
  | none =>
    match getFile idx name with
    | none => (idx, none)
    | some f =>
      if f.detail.deleted then (idx, none)
      else
        let nf := bumpTo f (deletedDetail f)
        (updateFile idx nf, some nf)
  | some content =>
    let hb := hashFileWith B content
    match getFile idx name with
    | none =>
      let f : IndexFile :=
        ⟨name, .file, ⟨1, hb.1, some hb.2, false⟩, [], env.now, env.userId⟩
      (createFile idx f, some f)
    | some f =>
      if ¬ f.detail.deleted ∧ f.detail.hash_sum = hb.1 then (idx, none)
      else
        let nf := bumpTo f ⟨f.detail.gen + 1, hb.1, some hb.2, false⟩
        (updateFile idx nf, some nf)

/-- handle_delete_watch_event: bump a present non-deleted entry to
deleted, else ignore. -/
def handleDeleteWatchEvent (idx : List IndexFile) (name : String) :
    List IndexFile × Option IndexFile :=
  match getFile idx name with
  | none => (idx, none)
  | some f =>
    if f.detail.deleted then (idx, none)
    else
      let nf := bumpTo f (deletedDetail f)
      (updateFile idx nf, some nf)

/-- handle_rename_watch_event. When the new path is missing, both the old
and the new entry get a deleted bump where present and non-deleted (the
old one gating the whole branch); when the new path exists, the old entry
gets a deleted bump where applicable, and the new entry is created at gen
1 or bumped with the fresh hash. -/
def handleRenameWatchEvent (env : SyncEnv) (B : Nat) (idx : List IndexFile)
    (fs : Fs) (oldName newName : String) : List IndexFile × List IndexFile :=
  match fsRead fs newName with
  | none =>
    match getFile idx oldName with
    | none => (idx, [])
    | some of =>
      if of.detail.deleted then (idx, [])
      else
        let of' := bumpTo of (deletedDetail of)
        let idx1 := updateFile idx of'
        match getFile idx1 newName with
        | none => (idx1, [of'])
        | some nf =>
          if nf.detail.deleted then (idx1, [of'])
          else
            let nf' := bumpTo nf (deletedDetail nf)
            (updateFile idx1 nf', [of', nf'])
  | some content =>
    let hb := hashFileWith B content
    let step1 : List IndexFile × List IndexFile :=
      match getFile idx oldName with
      | none => (idx, [])
      | some of =>
        if of.detail.deleted then (idx, [])
        else
          let of' := bumpTo of (deletedDetail of)
          (updateFile idx of', [of'])
    match getFile step1.1 newName with
    | none =>
      let f : IndexFile :=
        ⟨newName, .file, ⟨1, hb.1, some hb.2, false⟩, [], env.now, env.userId⟩
      (createFile step1.1 f, step1.2 ++ [f])
    | some nf =>
      let nf' := bumpTo nf ⟨nf.detail.gen + 1, hb.1, some hb.2, false⟩
      (updateFile step1.1 nf', step1.2 ++ [nf'])

/-- The loop of handle_watch_events: one guard per event, committed before
the next event, rumors collected across the batch. -/
def handleWatchEventsGo (env : SyncEnv) (B : Nat) (fs : Fs) :
    List WatchEvent → List IndexFile → List IndexFile →
      List IndexFile × List IndexFile
  | [], idx, rumors => (idx, rumors)
  | ev :: rest, idx, rumors =>
    match ev with
    | .add name =>
      let r := handleAddWatchEvent env B idx fs name
      handleWatchEventsGo env B fs rest r.1 (rumors ++ r.2.toList)
    | .modify name =>
      let r := handleModifyWatchEvent env B idx fs name
      handleWatchEventsGo env B fs rest r.1 (rumors ++ r.2.toList)
    | .rename oldName newName =>
      let r := handleRenameWatchEvent env B idx fs oldName newName
      handleWatchEventsGo env B fs rest r.1 (rumors ++ r.2)
    | .delete name =>
      let r := handleDeleteWatchEvent idx name
      handleWatchEventsGo env B fs rest r.1 (rumors ++ r.2.toList)

/-- handle_watch_events of watch_event_handler/mod.rs: process the batch,
then send the collected rumors to every peer (except set to none),
skipping the send entirely when no rumor was produced. -/
def handleWatchEvents (env : SyncEnv) (B : Nat) (st : SyncState)
    (events : List WatchEvent) : SyncState × Option SendRumors :=
  let r := handleWatchEventsGo env B st.fs events st.index []
  ({ index := r.1, fs := st.fs },
    if r.2.isEmpty then none else some ⟨env.dirId, r.2, none⟩)

/-!
Sync-all handler, from src/sync_control/sync_all_handler.rs. The three
partitions of the directory listing against the index, then one guard in
which deleted files are bumped to deleted, new files created or bumped and
existing files re-hashed and bumped on change; finally the whole index is
listed, sent to everyone unconditionally and the guard committed. The Rust
HashMaps iterate in unspecified order; the model fixes the listing order
of the fs and index lists, which no claim in scope depends on.
-/

/-- get_new_files: on disk, and absent from the index or recorded
deleted. -/
def getNewFiles (fs : Fs) (idx : List IndexFile) : List String :=
  (fs.map Prod.fst).filter (fun n =>
    match getFile idx n with
    | none => true
    | some f => f.detail.deleted)

/-- get_delete_files: recorded non-deleted but gone from disk. -/
def getDeleteFiles (fs : Fs) (idx : List IndexFile) : List String :=
  (idx.filter (fun f => ¬ f.detail.deleted ∧ (fsRead fs f.filename).isNone)).map
    (fun f => f.filename)

/-- get_exists_files: on disk and recorded non-deleted. -/
def getExistsFiles (fs : Fs) (idx : List IndexFile) : List String :=
  (fs.map Prod.fst).filter (fun n =>
    match getFile idx n with
    | none => false
    | some f => ¬ f.detail.deleted)

/-- The delete loop of SyncAllHandler::update_index: a partitioned file
missing from the guard is the fatal partition-invariant error; an already
deleted entry is skipped; otherwise bump to deleted, stamping update_time
and update_by. -/
def syncAllDeleteLoop (env : SyncEnv) (idx : List IndexFile) :
    List String → Except IoErrorKind (List IndexFile)
  | [] => .ok idx
  | name :: rest =>
    match getFile idx name with
    | none => .error .other
    | some f =>
      if f.detail.deleted then syncAllDeleteLoop env idx rest
      else
        let nf :=
          { bumpTo f (deletedDetail f) with
            update_time := env.now, update_by := env.userId }
        syncAllDeleteLoop env (updateFile idx nf) rest

/-- The new loop of SyncAllHandler::update_index: open and hash the file
(NotFound propagates here), then create at gen 1 when absent from the
guard, skip when a non-deleted entry already has the same hash, else bump
non-deleted. -/
def syncAllNewLoop (env : SyncEnv) (B : Nat) (fs : Fs) (idx : List IndexFile) :
    List String → Except IoErrorKind (List IndexFile)
  | [] => .ok idx
  | name :: rest =>
    match fsRead fs name with
    | none => .error .notFound
    | some content =>
      let hb := hashFileWith B content
      match getFile idx name with
      | some f =>
        if ¬ f.detail.deleted ∧ f.detail.hash_sum = hb.1 then
          syncAllNewLoop env B fs idx rest
        else
          let nf :=
            { bumpTo f ⟨f.detail.gen + 1, hb.1, some hb.2, false⟩ with
              update_time := env.now, update_by := env.userId }
          syncAllNewLoop env B fs (updateFile idx nf) rest
      | none =>
        let nf : IndexFile :=
          ⟨name, .file, ⟨1, hb.1, some hb.2, false⟩, [], env.now, env.userId⟩
        syncAllNewLoop env B fs (createFile idx nf) rest

/-- The exists loop of SyncAllHandler::update_index: open and hash, fatal
when the guard lost the entry, skip when the hash is unchanged, else bump
non-deleted. -/
def syncAllExistsLoop (env : SyncEnv) (B : Nat) (fs : Fs) (idx : List IndexFile) :
    List String → Except IoErrorKind (List IndexFile)
  | [] => .ok idx
  | name :: rest =>
    match fsRead fs name with
    | none => .error .notFound
    | some content =>
      let hb := hashFileWith B content
      match getFile idx name with
      | none => .error .other
      | some f =>
        if f.detail.hash_sum = hb.1 then syncAllExistsLoop env B fs idx rest
        else
          let nf :=
            { bumpTo f ⟨f.detail.gen + 1, hb.1, some hb.2, false⟩ with
              update_time := env.now, update_by := env.userId }
          syncAllExistsLoop env B fs (updateFile idx nf) rest

/-- handle_sync_all_event of sync_all_handler.rs: partition, run the three
loops in one guard, send the full resulting index to all peers and
commit. -/
def handleSyncAllEvent (env : SyncEnv) (B : Nat) (st : SyncState) :
    SyncState × Except IoErrorKind SendRumors :=
  let dels := getDeleteFiles st.fs st.index
  let news := getNewFiles st.fs st.index
  let exs := getExistsFiles st.fs st.index
  match syncAllDeleteLoop env st.index dels with
  | .error e => (st, .error e)
  | .ok i1 =>
    match syncAllNewLoop env B st.fs i1 news with
    | .error e => (st, .error e)
    | .ok i2 =>
      match syncAllExistsLoop env B st.fs i2 exs with
      | .error e => (st, .error e)
      | .ok i3 =>
        ({ index := i3, fs := st.fs }, .ok ⟨env.dirId, i3, none⟩)

/-!
Sync controller, from src/sync_control/mod.rs. The run loop pulls events
until the stream is exhausted, pausing the watcher around each dispatch.
The body after the loop is a literal todo!() in the source, modeled by the
panicked outcome. Watch-control transitions are modeled as infallible (no
claim in scope concerns their failure).
-/

/-- Event of src/sync_control/event.rs. -/
inductive ControllerEvent where
  | watch (events : List WatchEvent)
  | rumors (sender : Nat) (remoteIndex : List IndexFile)
  | syncAll
deriving DecidableEq

/-- How SyncController::run ends: cleanly (unreachable in the source),
by propagating a handler error, or by panicking. -/
inductive RunOutcome where
  | ok
  | failed (e : IoErrorKind)
  | panicked
deriving DecidableEq

/-- The loop of SyncController::run, accumulating everything pushed to the
rumor sink. Exhausting the event list reaches the todo!() that follows
the loop in the source. -/
def runLoop (env : SyncEnv) (B : Nat) (st : SyncState) :
    List ControllerEvent → List SendRumors →
      SyncState × List SendRumors × RunOutcome
  | [], sent => (st, sent, .panicked)
  | ev :: rest, sent =>
    match ev with
    | .watch ws =>
      let r := handleWatchEvents env B st ws
      runLoop env B r.1 rest (sent ++ r.2.toList)
    | .rumors sender rumors =>
      match handleRumorsEvent env sender st rumors with
      | (st', .err e) => (st', sent, .failed e)
      | (st', .ok msg) => runLoop env B st' rest (sent ++ msg.toList)
    | .syncAll =>
      match handleSyncAllEvent env B st with
      | (st', .error e) => (st', sent, .failed e)
      | (st', .ok msg) => runLoop env B st' rest (sent ++ [msg])

/-- SyncController::run on a finite event stream. -/
def runController (env : SyncEnv) (B : Nat) (st : SyncState)
    (events : List ControllerEvent) : SyncState × List SendRumors × RunOutcome :=
  runLoop env B st events []

/-!
Specification-side definitions and fixtures used by the theorems below.
-/

/-- The delta request set as the specification words it, for comparison
with compareBlocks: one request for each index position where the remote
and the local block differ in any of offset, len and hash, plus one
request for each trailing remote block beyond the local chain, and none
for trailing local blocks. -/
def specDeltaRequests (dirId : Nat) (filename : String)
    (remoteBlocks localBlocks : List Block) : List DownloadBlockRequest :=
  (List.range remoteBlocks.length).filterMap (fun i =>
    match remoteBlocks[i]?, localBlocks[i]? with
    | some r, some l =>
      if r.offset = l.offset ∧ r.len = l.len ∧ r.hash_sum = l.hash_sum then none
      else some ⟨dirId, filename, r.offset, r.len, r.hash_sum⟩
    | some r, none => some ⟨dirId, filename, r.offset, r.len, r.hash_sum⟩
    | none, _ => none)

/-- The persisted-index invariant of the spec: the current gen bounds
every previous gen strictly, previous details are sorted by ascending gen,
and no previous detail carries a block chain. -/
def WellFormed (f : IndexFile) : Prop :=
  (∀ d ∈ f.previous_details, d.gen < f.detail.gen ∧ d.block_chain = none) ∧
    f.previous_details.Chain' (fun a b => a.gen ≤ b.gen)

instance (f : IndexFile) : Decidable (WellFormed f) := by
  unfold WellFormed
  infer_instance

/-- All rows of an index satisfy the persisted invariant. -/
def AllWF (idx : List IndexFile) : Prop :=
  ∀ f ∈ idx, WellFormed f

instance (idx : List IndexFile) : Decidable (AllWF idx) := by
  unfold AllWF
  infer_instance

/-- The rumor payloads carried by a controller event. -/
def eventRumors : ControllerEvent → List IndexFile
  | .rumors _ rs => rs
  | _ => []

/-- Run a prefix of a rumor batch, returning the state reached and the
rumors that came back new, or none when some rumor of the prefix
errors. -/
def runRumorsUpTo (env : SyncEnv) (st : SyncState) :
    List IndexFile → Option (SyncState × List IndexFile)
  | [] => some (st, [])
  | r :: rest =>
    match handleRumor env st r with
    | (_, .err _) => none
    | (st', .ok isNew) =>
      (runRumorsUpTo env st' rest).map
        (fun p => (p.1, (if isNew then [r] else []) ++ p.2))

/-- Environment whose download transfer answers every request list with an
empty stream. -/
def envIdle : SyncEnv := ⟨0, "peer", 0, "T", fun _ => []⟩

/-- Environment whose download transfer yields a single none element: the
remote peer cannot fulfil the first block request. -/
def envCancel : SyncEnv := ⟨0, "peer", 0, "T", fun _ => [none]⟩

/-- A local index row for the file a at gen 1 with content hash [5]. -/
def entryA : IndexFile :=
  ⟨"a", .file, ⟨1, [5], some ⟨4, [⟨0, 1, [5]⟩]⟩, false⟩, [], 0, "u"⟩

/-- A local index row for the file b at gen 1. -/
def entryB : IndexFile :=
  ⟨"b", .file, ⟨1, [5], some ⟨4, [⟨0, 1, [5]⟩]⟩, false⟩, [], 0, "u"⟩

/-- A remote rumor for b at the same gen 1 but a later update time,
marking the file deleted. -/
def rumorBDeleted : IndexFile :=
  ⟨"b", .file, ⟨1, List.replicate 32 0, none, true⟩, [], 1, "v"⟩

/-- A remote rumor announcing the brand-new deleted file a. -/
def rumorADeleted : IndexFile :=
  ⟨"a", .file, ⟨1, List.replicate 32 0, none, true⟩, [], 1, "v"⟩

/-- A remote rumor for a at gen 1 with a different hash than entryA. -/
def rumorALow : IndexFile :=
  ⟨"a", .file, ⟨1, [8], some ⟨4, [⟨0, 1, [8]⟩]⟩, false⟩, [], 0, "v"⟩

/-- A local index row for the file a at gen 2 (newer than rumorALow). -/
def entryAHi : IndexFile :=
  ⟨"a", .file, ⟨2, [9], some ⟨4, [⟨0, 1, [9]⟩]⟩, false⟩,
    [⟨1, [5], none, false⟩], 0, "u"⟩

/-- A local index row for the file f at gen 1 over content [1, 2, 3]. -/
def entryF : IndexFile :=
  ⟨"f", .file, ⟨1, [10], some ⟨4, [⟨0, 3, [1, 2, 3]⟩]⟩, false⟩, [], 0, "u"⟩

/-- A remote rumor for f at gen 2 whose history contains the current
detail of entryF (the fast-forward situation), over five bytes of new
content. -/
def rumorFHi : IndexFile :=
  ⟨"f", .file, ⟨2, [20], some ⟨4, [⟨0, 5, [7, 7, 7, 7, 7]⟩]⟩, false⟩,
    [⟨1, [10], none, false⟩], 1, "v"⟩

/-- A remote rumor for the file c at gen 2 conflicting with entryC (no
shared history). -/
def rumorCConflict : IndexFile :=
  ⟨"c", .file, ⟨2, [21], some ⟨4, [⟨0, 1, [6]⟩]⟩, false⟩,
    [⟨1, [22], none, false⟩], 1, "v"⟩

/-- A local index row for the file c at gen 1. -/
def entryC : IndexFile :=
  ⟨"c", .file, ⟨1, [11], some ⟨4, [⟨0, 1, [4]⟩]⟩, false⟩, [], 0, "u"⟩

/-- A remote rumor for b at gen 2 whose history contains the current
detail of entryB and which marks the file deleted. -/
def rumorBHiDeleted : IndexFile :=
  ⟨"b", .file, ⟨2, List.replicate 32 0, none, true⟩,
    [⟨1, [5], none, false⟩], 1, "v"⟩

/-!
Theorems. First the unfolding equations of the hashing loop, then helper
lemmas, then one theorem per claim with its witness or counterexample.
-/
theorem hashFileLoop_congr :
    ∀ (fuel fuel' B : Nat) (data buf : List Nat) (offset : Nat),
      data.length < fuel → data.length < fuel' →
      hashFileLoop fuel B data buf offset = hashFileLoop fuel' B data buf offset := by
  intro fuel
  induction fuel with
  | zero => intro fuel' B data buf offset h _; omega
  | succ f ih =>
    intro fuel' B data buf offset h h'
    match fuel', h' with
    | f' + 1, h' =>
      simp only [hashFileLoop]
      by_cases hc : min B data.length < B ∨ B = 0
      · simp only [hc, if_true]
      · have hB : 0 < B := by omega
        have hlen : B ≤ data.length := by omega
        have hmin : min B data.length = B := Nat.min_eq_left hlen
        have hd : (data.drop B).length < f := by
          simp only [List.length_drop]; omega
        have hd' : (data.drop B).length < f' := by
          simp only [List.length_drop]; omega
        simp only [hc, if_false, hmin]
        rw [ih f' B (data.drop B) (data.take B ++ buf.drop B) (offset + B) hd hd']

/-- Unfolding of hashFileGo at a final (short) read: when fewer than B bytes
remain, read_fill returns n = data.length, the full buffer (new data plus the
stale tail) is fed to both hashers, the short block is emitted and the loop
stops. -/
theorem hashFileGo_stop (B : Nat) (data buf : List Nat) (offset : Nat)
    (h : data.length < B) :
    hashFileGo B data buf offset =
      (data ++ buf.drop data.length,
        [⟨offset, data.length, data ++ buf.drop data.length⟩]) := by
  have hmin : min B data.length = data.length := Nat.min_eq_right (Nat.le_of_lt h)
  simp only [hashFileGo, hashFileLoop, hmin, h, true_or, if_true, List.take_length]

/-- Unfolding of hashFileGo at a full read: when at least B bytes remain,
read_fill returns n = B, the buffer becomes the next B bytes of data (plus
any tail of the previous buffer beyond B), a full block is emitted and the
loop continues. -/
theorem hashFileGo_cont (B : Nat) (data buf : List Nat) (offset : Nat)
    (hB : 0 < B) (h : B ≤ data.length) :
    hashFileGo B data buf offset =
      ((data.take B ++ buf.drop B) ++ (hashFileGo B (data.drop B) (data.take B ++ buf.drop B) (offset + B)).1,
        ⟨offset, B, data.take B ++ buf.drop B⟩ ::
          (hashFileGo B (data.drop B) (data.take B ++ buf.drop B) (offset + B)).2) := by
  have hmin : min B data.length = B := Nat.min_eq_left h
  have hc : ¬ (min B data.length < B ∨ B = 0) := by omega
  have hd : (data.drop B).length < data.length := by
    simp only [List.length_drop]; omega
  have hc2 : ¬ (B < B ∨ B = 0) := by omega
  show hashFileLoop (data.length + 1) B data buf offset = _
  simp only [hashFileLoop, hc, if_false, hmin, hc2]
  rw [hashFileLoop_congr data.length ((data.drop B).length + 1) B (data.drop B)
    (data.take B ++ buf.drop B) (offset + B) hd (Nat.lt_succ_self _)]
  rfl
example :
    hashFileWith 2 [7, 8, 9] =
      ([7, 8, 9, 8], ⟨2, [⟨0, 2, [7, 8]⟩, ⟨2, 1, [9, 8]⟩]⟩) := by
  decide

example :
    hashFileWith 2 [] = ([0, 0], ⟨2, [⟨0, 0, [0, 0]⟩]⟩) := by
  decide

example :
    hashFileWith 2 [5, 6] =
      ([5, 6, 5, 6], ⟨2, [⟨0, 2, [5, 6]⟩, ⟨2, 0, [5, 6]⟩]⟩) := by
  decide

/-- The hashing loop always emits at least one block. -/
theorem hashFileGo_ne_nil (B : Nat) (data buf : List Nat) (offset : Nat) :
    (hashFileGo B data buf offset).2 ≠ [] := by
  simp only [hashFileGo, hashFileLoop]
  split <;> simp

/-- The last block emitted by the hashing loop has length
data.length % B. -/
theorem hashFileGo_last_len (B : Nat) (hB : 0 < B) :
    ∀ (n : Nat) (data buf : List Nat) (offset : Nat), data.length = n →
      ((hashFileGo B data buf offset).2.getLast?).map Block.len =
        some (data.length % B) := by
  intro n
  induction n using Nat.strong_induction_on with
  | _ n ih =>
    intro data buf offset hlen
    by_cases h : data.length < B
    · rw [hashFileGo_stop B data buf offset h]
      simp [Nat.mod_eq_of_lt h]
    · push_neg at h
      rw [hashFileGo_cont B data buf offset hB h]
      obtain ⟨c, l', hcl⟩ :=
        List.exists_cons_of_ne_nil
          (hashFileGo_ne_nil B (data.drop B) (data.take B ++ buf.drop B) (offset + B))
      have hrec :=
        ih (data.length - B) (by omega) (data.drop B)
          (data.take B ++ buf.drop B) (offset + B)
          (by simp only [List.length_drop])
      rw [hcl] at hrec
      simp only [List.length_drop] at hrec
      simp only [hcl, List.getLast?_cons_cons, hrec]
      rw [Nat.mod_eq_sub_mod h]

/-- Every full block (one whose end fits inside the data) emitted by the
hashing loop carries exactly its own B bytes of data as the digest
input. -/
theorem hashFileGo_full_block (B : Nat) (hB : 0 < B) :
    ∀ (i : Nat) (data buf : List Nat) (offset : Nat),
      buf.length = B → (i + 1) * B ≤ data.length →
      (hashFileGo B data buf offset).2[i]? =
        some ⟨offset + i * B, B, (data.drop (i * B)).take B⟩ := by
  intro i
  induction i with
  | zero =>
    intro data buf offset hbuf hlen
    have h : B ≤ data.length := by omega
    rw [hashFileGo_cont B data buf offset hB h]
    have hd : buf.drop B = [] := by
      rw [← hbuf]; exact List.drop_length buf
    simp [hd]
  | succ i ih =>
    intro data buf offset hbuf hlen
    have hstep : (i + 1 + 1) * B = (i + 1) * B + B := by
      rw [Nat.succ_mul]
    have h : B ≤ data.length := by
      have : (i + 1) * B + B ≥ B := by omega
      omega
    rw [hashFileGo_cont B data buf offset hB h]
    have hd : buf.drop B = [] := by
      rw [← hbuf]; exact List.drop_length buf
    have hbuf' : (data.take B ++ buf.drop B).length = B := by
      simp [hd]; omega
    have hlen' : (i + 1) * B ≤ (data.drop B).length := by
      simp only [List.length_drop]; omega
    have hrec := ih (data.drop B) (data.take B ++ buf.drop B) (offset + B) hbuf' hlen'
    simp only [List.getElem?_cons_succ, hrec, List.drop_drop]
    have h1 : B + i * B = (i + 1) * B := by rw [Nat.succ_mul]; omega
    have h2 : offset + B + i * B = offset + (i + 1) * B := by
      rw [Nat.succ_mul]; omega
    rw [h1, h2]

/-- Bridge between hash_file and its loop, proved once generically so that
instances at large literal inputs never force kernel evaluation. -/
theorem hash_file_blocks (data : List Nat) :
    (hash_file data).2.blocks =
      (hashFileGo BLOCK_SIZE data (List.replicate BLOCK_SIZE 0) 0).2 := rfl

/-- C3, counterexample. The claim states that hashing a zero-length input
yields one block whose hash equals the SHA-256 of the empty input, which
under the digest model of this file is the empty byte string. The code
feeds the entire zero-initialized BLOCK_SIZE buffer to the hasher (not
the zero read bytes), so the block digest input is BLOCK_SIZE zero bytes,
not the empty input. -/
theorem c3_counterexample :
    (hash_file []).2.blocks.map Block.hash_sum = [List.replicate BLOCK_SIZE 0] ∧
      List.replicate BLOCK_SIZE 0 ≠ ([] : List Nat) := by
  have h0 : (0 : Nat) < BLOCK_SIZE := by decide
  constructor
  · have hs := hashFileGo_stop BLOCK_SIZE [] (List.replicate BLOCK_SIZE 0) 0
      (by simpa using h0)
    simp only [hash_file, hashFileWith, hs, List.length_nil, List.drop_zero,
      List.nil_append, List.map_cons, List.map_nil]
  · intro h
    have hlen := congrArg List.length h
    simp only [List.length_replicate, List.length_nil] at hlen
    omega

/-- C3, amended: hash_file emits the final block even when it is shorter
than BLOCK_SIZE (the last block has length data.length mod BLOCK_SIZE, so
the chain is never empty), and a zero-length input yields exactly one
block of length 0; but that block's hash is the SHA-256 of BLOCK_SIZE zero
bytes (the full buffer the code feeds to the hasher), not of the empty
input. -/
theorem c3_final_block_amended :
    (∀ data : List Nat,
      ((hash_file data).2.blocks.getLast?).map Block.len =
        some (data.length % BLOCK_SIZE)) ∧
    (hash_file []).2.blocks = [⟨0, 0, List.replicate BLOCK_SIZE 0⟩] := by
  have h0 : (0 : Nat) < BLOCK_SIZE := by decide
  constructor
  · intro data
    exact hashFileGo_last_len BLOCK_SIZE h0 data.length data
      (List.replicate BLOCK_SIZE 0) 0 rfl
  · have hs := hashFileGo_stop BLOCK_SIZE [] (List.replicate BLOCK_SIZE 0) 0
      (by simpa using h0)
    simp only [hash_file, hashFileWith, hs, List.length_nil, List.drop_zero,
      List.nil_append]

/-- C4, counterexample. On the input of 2 * BLOCK_SIZE zero bytes, the
bytes of blocks 0 and 1 concatenated are the whole input, so the claim
asserts that block 1's hash is the digest of 2 * BLOCK_SIZE zero bytes;
the code resets the block hasher with finalize_reset after each block, so
block 1's digest input is only its own BLOCK_SIZE bytes. -/
theorem c4_counterexample :
    ∃ b : Block,
      (hash_file (List.replicate (2 * BLOCK_SIZE) 0)).2.blocks[1]? = some b ∧
        b.hash_sum ≠ List.replicate (2 * BLOCK_SIZE) 0 := by
  have h0 : (0 : Nat) < BLOCK_SIZE := by decide
  have hfull := hashFileGo_full_block BLOCK_SIZE h0 1
    (List.replicate (2 * BLOCK_SIZE) 0) (List.replicate BLOCK_SIZE 0) 0
    (List.length_replicate _ _)
    (by simp only [List.length_replicate]; omega)
  refine ⟨⟨0 + 1 * BLOCK_SIZE, BLOCK_SIZE,
    ((List.replicate (2 * BLOCK_SIZE) 0).drop (1 * BLOCK_SIZE)).take BLOCK_SIZE⟩, ?_, ?_⟩
  · rw [hash_file_blocks]
    exact hfull
  · simp only [List.drop_replicate, List.take_replicate]
    intro h
    have hlen := congrArg List.length h
    simp only [List.length_replicate] at hlen
    omega

/-- C4, amended: the block hasher IS reset before each new block is fed
(finalize_reset both yields the digest and resets the state), so for every
input and every block index i whose block lies fully inside the input, the
block's hash is the SHA-256 of exactly that block's own BLOCK_SIZE bytes,
not of the concatenation of blocks 0..=i. -/
theorem c4_block_hash_amended (data : List Nat) (i : Nat)
    (h : (i + 1) * BLOCK_SIZE ≤ data.length) :
    (hash_file data).2.blocks[i]? =
      some ⟨i * BLOCK_SIZE, BLOCK_SIZE, (data.drop (i * BLOCK_SIZE)).take BLOCK_SIZE⟩ := by
  have h0 : (0 : Nat) < BLOCK_SIZE := by decide
  have hfull := hashFileGo_full_block BLOCK_SIZE h0 i data (List.replicate BLOCK_SIZE 0) 0
    (List.length_replicate _ _) h
  rw [hash_file_blocks]
  rw [Nat.zero_add] at hfull
  exact hfull

/-- Witness for c4_block_hash_amended at the concrete input of
2 * BLOCK_SIZE zero bytes and block index 1. -/
theorem c4_block_hash_amended_witness :
    (1 + 1) * BLOCK_SIZE ≤ (List.replicate (2 * BLOCK_SIZE) 0).length ∧
      (hash_file (List.replicate (2 * BLOCK_SIZE) 0)).2.blocks[1]? =
        some ⟨1 * BLOCK_SIZE, BLOCK_SIZE,
          ((List.replicate (2 * BLOCK_SIZE) 0).drop (1 * BLOCK_SIZE)).take BLOCK_SIZE⟩ :=
  ⟨by simp only [List.length_replicate]; omega,
    c4_block_hash_amended (List.replicate (2 * BLOCK_SIZE) 0) 1
      (by simp only [List.length_replicate]; omega)⟩

/-- C2: when the event stream is exhausted, SyncController::run does not
return cleanly; the source reaches the todo!() placed after the while-let
loop, which panics. The claim (and the spec sentence it quotes) say the
loop terminates cleanly; the model shows the panicked outcome instead. -/
theorem c2_exhausted_stream_panics (env : SyncEnv) (B : Nat) (st : SyncState) :
    runController env B st [] = (st, [], RunOutcome.panicked) := rfl

/-- Structure equality of blocks is exactly componentwise equality of
offset, len and hash. -/
theorem Block.eq_iff {a b : Block} :
    a = b ↔ (a.offset = b.offset ∧ a.len = b.len ∧ a.hash_sum = b.hash_sum) := by
  cases a
  cases b
  simp

/-- Splitting one position off a filterMap over an initial segment. -/
theorem filterMap_range_succ {α : Type} (g : Nat → Option α) (n : Nat) :
    (List.range (n + 1)).filterMap g =
      (g 0).toList ++ (List.range n).filterMap (fun i => g (i + 1)) := by
  rw [List.range_succ_eq_map, List.filterMap_cons, List.filterMap_map]
  cases h : g 0 <;> simp [h, Function.comp_def]

/-- C7: on the fast-forward delta path, compare_blocks emits exactly the
request set the spec describes: one request per index position where the
remote and local blocks differ in any of offset, len or hash, one request
per trailing remote block, and none for trailing local blocks
(specDeltaRequests is that description verbatim). -/
theorem c7_compare_blocks_delta (dirId : Nat) (filename : String) :
    ∀ (rb lb : List Block),
      compareBlocks dirId filename rb lb = specDeltaRequests dirId filename rb lb := by
  intro rb
  induction rb with
  | nil =>
    intro lb
    rfl
  | cons r rs ih =>
    intro lb
    cases lb with
    | nil =>
      rw [show compareBlocks dirId filename (r :: rs) [] =
        ⟨dirId, filename, r.offset, r.len, r.hash_sum⟩ ::
          compareBlocks dirId filename rs [] from rfl]
      rw [ih []]
      simp only [specDeltaRequests, List.length_cons]
      rw [filterMap_range_succ]
      simp only [List.getElem?_cons_zero, List.getElem?_cons_succ, List.getElem?_nil,
        Option.toList_some, List.singleton_append]
    | cons l ls =>
      have hspec : specDeltaRequests dirId filename (r :: rs) (l :: ls) =
          (if r.offset = l.offset ∧ r.len = l.len ∧ r.hash_sum = l.hash_sum then
            ([] : List DownloadBlockRequest)
          else [⟨dirId, filename, r.offset, r.len, r.hash_sum⟩]) ++
            specDeltaRequests dirId filename rs ls := by
        simp only [specDeltaRequests, List.length_cons]
        rw [filterMap_range_succ]
        simp only [List.getElem?_cons_zero, List.getElem?_cons_succ]
        by_cases hc : r.offset = l.offset ∧ r.len = l.len ∧ r.hash_sum = l.hash_sum
        · simp only [if_pos hc, Option.toList_none, List.nil_append]
        · simp only [if_neg hc, Option.toList_some, List.singleton_append,
            List.cons_append, List.nil_append]
      rw [show compareBlocks dirId filename (r :: rs) (l :: ls) =
        (if r = l then compareBlocks dirId filename rs ls else
          ⟨dirId, filename, r.offset, r.len, r.hash_sum⟩ ::
            compareBlocks dirId filename rs ls) from rfl]
      rw [hspec, ih ls]
      by_cases hrl : r = l
      · rw [if_pos hrl, if_pos (Block.eq_iff.mp hrl), List.nil_append]
      · rw [if_neg hrl, if_neg (fun hc => hrl (Block.eq_iff.mpr hc)),
          List.singleton_append]

/-- C8: a rumor whose generation is strictly below the local one is
ignored unconditionally (handle_local_is_latest only logs, whether or not
history contains the remote detail): the state, including the index entry
and the file on disk, is unchanged, the outcome is non-new, and a
singleton batch of it sends nothing (so the rumor is not rebroadcast). -/
theorem c8_local_newer_ignored (env : SyncEnv) (sender : Nat) (st : SyncState)
    (remote local_ : IndexFile)
    (hget : getFile st.index remote.filename = some local_)
    (hgen : remote.detail.gen < local_.detail.gen) :
    handleRumor env st remote = (st, .ok false) ∧
      handleRumorsEvent env sender st [remote] = (st, .ok none) := by
  have h2 : ¬ local_.detail.gen < remote.detail.gen := by omega
  have h3 : ¬ local_.detail.gen = remote.detail.gen := by omega
  have h1 : handleRumor env st remote = (st, .ok false) := by
    unfold handleRumor
    rw [hget]
    simp only [h2, h3, if_false]
  refine ⟨h1, ?_⟩
  unfold handleRumorsEvent handleRumorsEventGo
  rw [h1]
  rfl

/-- Witness for c8_local_newer_ignored: a local entry at gen 2 and a
remote rumor at gen 1 for the same file. -/
theorem c8_local_newer_ignored_witness :
    getFile [entryAHi] rumorALow.filename = some entryAHi ∧
      rumorALow.detail.gen < entryAHi.detail.gen ∧
      (handleRumor envIdle ⟨[entryAHi], []⟩ rumorALow = (⟨[entryAHi], []⟩, .ok false) ∧
        handleRumorsEvent envIdle 7 ⟨[entryAHi], []⟩ [rumorALow] =
          (⟨[entryAHi], []⟩, .ok none)) :=
  ⟨by decide, by decide,
    c8_local_newer_ignored envIdle 7 ⟨[entryAHi], []⟩ rumorALow entryAHi
      (by decide) (by decide)⟩

/-- The loop of handle_rumors_event aborts as soon as one rumor errors,
regardless of the rumors already accumulated (acc is discarded), keeping
the state reached so far. -/
theorem handleRumorsEventGo_abort (env : SyncEnv) (sender : Nat) (bad : IndexFile)
    (post : List IndexFile) (st2 : SyncState) (e : IoErrorKind) :
    ∀ (pre : List IndexFile) (st st1 : SyncState) (news acc : List IndexFile),
      runRumorsUpTo env st pre = some (st1, news) →
      handleRumor env st1 bad = (st2, .err e) →
      handleRumorsEventGo env sender st (pre ++ bad :: post) acc = (st2, .err e) := by
  intro pre
  induction pre with
  | nil =>
    intro st st1 news acc hrun hbad
    simp only [runRumorsUpTo, Option.some.injEq, Prod.mk.injEq] at hrun
    obtain ⟨h1, _⟩ := hrun
    subst h1
    simp only [List.nil_append, handleRumorsEventGo]
    rw [hbad]
  | cons r pre' ih =>
    intro st st1 news acc hrun hbad
    simp only [runRumorsUpTo] at hrun
    cases hr : handleRumor env st r with
    | mk st' out =>
      cases out with
      | err e' =>
        rw [hr] at hrun
        simp at hrun
      | ok isNew =>
        rw [hr] at hrun
        simp only [Option.map_eq_some'] at hrun
        obtain ⟨p, hp, hfn⟩ := hrun
        have hst1 : p.1 = st1 := congrArg Prod.fst hfn
        simp only [List.cons_append, handleRumorsEventGo]
        rw [hr]
        exact ih st' st1 p.2 (if isNew then acc ++ [r] else acc)
          (by rw [hp, ← hst1]) hbad

/-- C10: when a rumor of a batch errs after some prefix of the batch has
already been handled and committed, the whole batch is aborted: the
rumors the prefix returned as new (news, possibly non-empty) are
discarded, no SendRumors value reaches the sink (the result is the err
outcome, which the controller propagates before the send), and the
committed state st1 reached by the prefix is kept (st2 extends it with
whatever the failing rumor did before erring). -/
theorem c10_batch_abort (env : SyncEnv) (sender : Nat) (st : SyncState)
    (pre : List IndexFile) (bad : IndexFile) (post : List IndexFile)
    (st1 st2 : SyncState) (news : List IndexFile) (e : IoErrorKind)
    (hrun : runRumorsUpTo env st pre = some (st1, news))
    (hbad : handleRumor env st1 bad = (st2, .err e)) :
    handleRumorsEvent env sender st (pre ++ bad :: post) = (st2, .err e) :=
  handleRumorsEventGo_abort env sender bad post st2 e pre st st1 news [] hrun hbad

/-- Witness for c10_batch_abort: the first rumor creates a new deleted
entry for a (so it is accumulated as new and its commit persists), and the
second rumor fails with NotFound in the gen-equal deleted branch. -/
theorem c10_batch_abort_witness :
    runRumorsUpTo envIdle ⟨[entryB], []⟩ [rumorADeleted] =
        some (⟨[entryB, rumorADeleted], []⟩, [rumorADeleted]) ∧
      handleRumor envIdle ⟨[entryB, rumorADeleted], []⟩ rumorBDeleted =
        (⟨[entryB, rumorADeleted], []⟩, .err .notFound) ∧
      handleRumorsEvent envIdle 7 ⟨[entryB], []⟩
          ([rumorADeleted] ++ rumorBDeleted :: []) =
        (⟨[entryB, rumorADeleted], []⟩, .err .notFound) :=
  ⟨by decide, by decide,
    c10_batch_abort envIdle 7 ⟨[entryB], []⟩ [rumorADeleted] rumorBDeleted []
      ⟨[entryB, rumorADeleted], []⟩ ⟨[entryB, rumorADeleted], []⟩ [rumorADeleted]
      .notFound (by decide) (by decide)⟩

/-- C1: evaluation of the code at the failing input. The local file f is
at gen 1 over bytes [1, 2, 3]; the remote rumor is a fast-forward to gen 2
whose chain announces 5 bytes; the download stream yields None (the peer
cannot serve the block). The claim says the sync is aborted, non-new, the
temp file is not renamed onto f and no index change is committed. The
code instead discards the canceled flag of sync_file on this path: the
temp file (the origin bytes zero-extended by set_len, with no block ever
written) is renamed onto f, the index is committed to the remote detail,
the outcome is new, and the rumor is rebroadcast. -/
theorem c1_cancel_ignored_on_fast_forward :
    handleRumor envCancel ⟨[entryF], [("f", [1, 2, 3])]⟩ rumorFHi =
        (⟨[rumorFHi], [("f", [1, 2, 3, 0, 0])]⟩, .ok true) ∧
      handleRumorsEvent envCancel 3 ⟨[entryF], [("f", [1, 2, 3])]⟩ [rumorFHi] =
        (⟨[rumorFHi], [("f", [1, 2, 3, 0, 0])]⟩,
          .ok (some ⟨0, [rumorFHi], some 3⟩)) := by
  decide

/-- C5, counterexample. An Add event for a file that is not on disk while
the index holds a non-deleted entry for it: the claim says the handler
bumps the generation with deleted set; the code returns from the NotFound
branch of File::open before even consulting the index, leaving the index
unchanged and producing no rumor. -/
theorem c5_counterexample :
    fsRead [] "a" = none ∧ getFile [entryA] "a" = some entryA ∧
      entryA.detail.deleted = false ∧
      handleAddWatchEvent envIdle BLOCK_SIZE [entryA] [] "a" = ([entryA], none) := by
  decide

/-- C5, amended: only the Modify handler implements the deleted-bump rule
for a missing file; the Add handler ignores a missing file outright,
whatever the index holds. Part one: Add with a missing file is always a
no-op. Part two: Modify with a missing file and a non-deleted entry bumps
the gen with a deleted detail, appending the old detail with its chain
stripped. Part three: Modify with a missing file and no entry (or an
already deleted one) is a no-op. -/
theorem c5_add_modify_missing_amended :
    (∀ (env : SyncEnv) (B : Nat) (idx : List IndexFile) (fs : Fs) (name : String),
      fsRead fs name = none →
      handleAddWatchEvent env B idx fs name = (idx, none)) ∧
    (∀ (env : SyncEnv) (B : Nat) (idx : List IndexFile) (fs : Fs) (name : String)
      (f : IndexFile),
      fsRead fs name = none → getFile idx name = some f →
      f.detail.deleted = false →
      handleModifyWatchEvent env B idx fs name =
        (updateFile idx (bumpTo f (deletedDetail f)),
          some (bumpTo f (deletedDetail f)))) ∧
    (∀ (env : SyncEnv) (B : Nat) (idx : List IndexFile) (fs : Fs) (name : String),
      fsRead fs name = none →
      (getFile idx name = none ∨
        ∃ f, getFile idx name = some f ∧ f.detail.deleted = true) →
      handleModifyWatchEvent env B idx fs name = (idx, none)) := by
  refine ⟨?_, ?_, ?_⟩
  · intro env B idx fs name h
    simp only [handleAddWatchEvent, h]
  · intro env B idx fs name f h hget hdel
    simp only [handleModifyWatchEvent, h, hget, hdel]
    simp
  · intro env B idx fs name h hidx
    rcases hidx with hnone | ⟨f, hget, hdel⟩
    · simp only [handleModifyWatchEvent, h, hnone]
    · simp only [handleModifyWatchEvent, h, hget, hdel]
      simp

/-- Witness for c5_add_modify_missing_amended, instantiating all three
parts at concrete states. -/
theorem c5_add_modify_missing_amended_witness :
    (fsRead [] "a" = none ∧
      handleAddWatchEvent envIdle BLOCK_SIZE [entryA] [] "a" = ([entryA], none)) ∧
    (fsRead [] "b" = none ∧ getFile [entryB] "b" = some entryB ∧
      entryB.detail.deleted = false ∧
      handleModifyWatchEvent envIdle BLOCK_SIZE [entryB] [] "b" =
        (updateFile [entryB] (bumpTo entryB (deletedDetail entryB)),
          some (bumpTo entryB (deletedDetail entryB)))) ∧
    (fsRead [] "x" = none ∧ getFile [] "x" = none ∧
      handleModifyWatchEvent envIdle BLOCK_SIZE [] [] "x" = ([], none)) :=
  ⟨⟨by decide, c5_add_modify_missing_amended.1 envIdle BLOCK_SIZE [entryA] [] "a" (by decide)⟩,
    ⟨by decide, by decide, by decide,
      c5_add_modify_missing_amended.2.1 envIdle BLOCK_SIZE [entryB] [] "b" entryB
        (by decide) (by decide) (by decide)⟩,
    ⟨by decide, by decide,
      c5_add_modify_missing_amended.2.2 envIdle BLOCK_SIZE [] [] "x" (by decide)
        (Or.inl (by decide))⟩⟩

/-- Erasing an absent file leaves the directory unchanged (the downgraded
NotFound of remove_file is a no-op). -/
theorem fsErase_absent (fs : Fs) (name : String)
    (h : fsRead fs name = none) : fsErase fs name = fs := by
  simp only [fsRead, Option.map_eq_none'] at h
  rw [List.find?_eq_none] at h
  apply List.filter_eq_self.mpr
  intro p hp
  simpa using h p hp

/-- C6, counterexample. A rumor at the same gen as the local entry, with a
later update time and deleted set, while the file is already gone from the
sync dir: the claim says NotFound from the removal is downgraded to a
no-op and never fatal, but handle_gen_eq propagates it with the try
operator, failing the rumor. -/
theorem c6_counterexample :
    getFile [entryB] rumorBDeleted.filename = some entryB ∧
      entryB.detail.gen = rumorBDeleted.detail.gen ∧
      rumorBDeleted.detail.deleted = true ∧
      fsRead [] rumorBDeleted.filename = none ∧
      handleRumor envIdle ⟨[entryB], []⟩ rumorBDeleted =
        (⟨[entryB], []⟩, .err .notFound) := by
  decide

/-- C6, amended: NotFound on the local sync dir is downgraded to a no-op
in the no-local-entry deleted branch (part one) and in the fast-forward
deleted branch (part two), and the watch handlers catch NotFound on open
(proved with C5); but it IS propagated as a fatal error by the remove of
the gen-equal remote-newer deleted branch (part three) and by the
origin-file open of the conflict path (part four). -/
theorem c6_notfound_amended :
    (∀ (env : SyncEnv) (st : SyncState) (remote : IndexFile),
      getFile st.index remote.filename = none →
      remote.detail.deleted = true →
      fsRead st.fs remote.filename = none →
      handleRumor env st remote =
        ({ index := createFile st.index remote, fs := st.fs }, .ok true)) ∧
    (∀ (env : SyncEnv) (st : SyncState) (remote local_ : IndexFile),
      getFile st.index remote.filename = some local_ →
      local_.detail.gen < remote.detail.gen →
      remote.previous_details.any
        (fun d => d.gen = local_.detail.gen ∧ d.hash_sum = local_.detail.hash_sum) = true →
      remote.detail.deleted = true →
      fsRead st.fs remote.filename = none →
      handleRumor env st remote =
        ({ index := updateFile st.index remote, fs := st.fs }, .ok true)) ∧
    (∀ (env : SyncEnv) (st : SyncState) (remote local_ : IndexFile),
      getFile st.index remote.filename = some local_ →
      local_.detail.gen = remote.detail.gen →
      remote ≠ local_ →
      local_.update_time < remote.update_time →
      remote.detail.deleted = true →
      fsRead st.fs remote.filename = none →
      handleRumor env st remote = (st, .err .notFound)) ∧
    (∀ (env : SyncEnv) (st : SyncState) (remote local_ : IndexFile),
      getFile st.index remote.filename = some local_ →
      local_.detail.gen < remote.detail.gen →
      remote.previous_details.any
        (fun d => d.gen = local_.detail.gen ∧ d.hash_sum = local_.detail.hash_sum) = false →
      fsRead st.fs remote.filename = none →
      handleRumor env st remote = (st, .err .notFound)) := by
  refine ⟨?_, ?_, ?_, ?_⟩
  · intro env st remote hget hdel hfs
    simp only [handleRumor, hget, handleRumorNoLocal, hdel, if_true]
    rw [fsErase_absent st.fs remote.filename hfs]
  · intro env st remote local_ hget hlt hany hdel hfs
    simp only [handleRumor, hget, if_pos hlt, handleRemoteIsLatest, hany, if_true, hdel]
    rw [fsErase_absent st.fs remote.filename hfs]
  · intro env st remote local_ hget heq hne htime hdel hfs
    have hnlt : ¬ local_.detail.gen < remote.detail.gen := by omega
    have hnlt2 : ¬ remote.update_time < local_.update_time := by omega
    simp only [handleRumor, hget, hnlt, if_false, heq, if_true, handleGenEq,
      if_neg hne, hnlt2, if_pos htime, hdel, hfs]
    rw [if_neg (lt_irrefl remote.detail.gen)]
  · intro env st remote local_ hget hlt hany hfs
    simp only [handleRumor, hget, if_pos hlt, handleRemoteIsLatest, hany,
      Bool.false_eq_true, if_false, hfs]

/-- Witness for c6_notfound_amended: all four parts instantiated at
concrete states; a and b as used throughout, c for the conflict path. -/
theorem c6_notfound_amended_witness :
    (getFile ([] : List IndexFile) rumorADeleted.filename = none ∧
      fsRead [] rumorADeleted.filename = none ∧
      handleRumor envIdle ⟨[], []⟩ rumorADeleted =
        (⟨createFile [] rumorADeleted, []⟩, .ok true)) ∧
    (getFile [entryB] rumorBHiDeleted.filename = some entryB ∧
      entryB.detail.gen < rumorBHiDeleted.detail.gen ∧
      fsRead [] rumorBHiDeleted.filename = none ∧
      handleRumor envIdle ⟨[entryB], []⟩ rumorBHiDeleted =
        (⟨updateFile [entryB] rumorBHiDeleted, []⟩, .ok true)) ∧
    (handleRumor envIdle ⟨[entryB], []⟩ rumorBDeleted =
      (⟨[entryB], []⟩, .err .notFound)) ∧
    (getFile [entryC] rumorCConflict.filename = some entryC ∧
      entryC.detail.gen < rumorCConflict.detail.gen ∧
      fsRead [] rumorCConflict.filename = none ∧
      handleRumor envIdle ⟨[entryC], []⟩ rumorCConflict =
        (⟨[entryC], []⟩, .err .notFound)) :=
  ⟨⟨by decide, by decide,
      c6_notfound_amended.1 envIdle ⟨[], []⟩ rumorADeleted
        (by decide) (by decide) (by decide)⟩,
    ⟨by decide, by decide, by decide,
      c6_notfound_amended.2.1 envIdle ⟨[entryB], []⟩ rumorBHiDeleted entryB
        (by decide) (by decide) (by decide) (by decide) (by decide)⟩,
    c6_notfound_amended.2.2.1 envIdle ⟨[entryB], []⟩ rumorBDeleted entryB
      (by decide) (by decide) (by decide) (by decide) (by decide) (by decide),
    ⟨by decide, by decide, by decide,
      c6_notfound_amended.2.2.2 envIdle ⟨[entryC], []⟩ rumorCConflict entryC
        (by decide) (by decide) (by decide) (by decide)⟩⟩

/-- An element of getLast? is an element of the list. -/
theorem mem_of_mem_getLast? {α : Type} {l : List α} {x : α}
    (h : x ∈ l.getLast?) : x ∈ l := by
  obtain ⟨hne, rfl⟩ := List.mem_getLast?_eq_getLast h
  exact List.getLast_mem hne

/-- A row found by get_file is a row of the index. -/
theorem getFile_mem {idx : List IndexFile} {name : String} {f : IndexFile}
    (h : getFile idx name = some f) : f ∈ idx :=
  List.mem_of_find?_eq_some h

/-- update_file keeps the invariant when the replacing row has it. -/
theorem allWF_updateFile {idx : List IndexFile} {f : IndexFile}
    (h : AllWF idx) (hf : WellFormed f) : AllWF (updateFile idx f) := by
  intro g hg
  simp only [updateFile, List.mem_map] at hg
  obtain ⟨a, ha, hae⟩ := hg
  by_cases hc : a.filename = f.filename
  · rw [if_pos hc] at hae
    exact hae ▸ hf
  · rw [if_neg hc] at hae
    exact hae ▸ h a ha

/-- create_file keeps the invariant when the new row has it. -/
theorem allWF_createFile {idx : List IndexFile} {f : IndexFile}
    (h : AllWF idx) (hf : WellFormed f) : AllWF (createFile idx f) := by
  intro g hg
  simp only [createFile, List.mem_append, List.mem_singleton] at hg
  rcases hg with h1 | rfl
  · exact h g h1
  · exact hf

/-- The gen bump preserves the invariant whenever the new detail has a
strictly larger gen: the old detail is appended with its chain stripped
and its gen below the new one, and it dominates every older previous
detail. -/
theorem wellFormed_bumpTo {f : IndexFile} {d : FileDetail}
    (hf : WellFormed f) (hgen : f.detail.gen < d.gen) :
    WellFormed (bumpTo f d) := by
  obtain ⟨h1, h2⟩ := hf
  constructor
  · intro x hx
    simp only [bumpTo, List.mem_append, List.mem_singleton] at hx
    rcases hx with hx | rfl
    · obtain ⟨ha, hb⟩ := h1 x hx
      exact ⟨lt_trans ha hgen, hb⟩
    · exact ⟨hgen, rfl⟩
  · show List.Chain' _ (f.previous_details ++ [{ f.detail with block_chain := none }])
    rw [List.chain'_append]
    refine ⟨h2, List.chain'_singleton _, ?_⟩
    intro x hx y hy
    simp only [List.head?_cons, Option.mem_def, Option.some.injEq] at hy
    subst hy
    exact le_of_lt (h1 x (mem_of_mem_getLast? hx)).1

/-- A freshly created gen 1 row with no previous details has the
invariant. -/
theorem wellFormed_create1 {name : String} {k : FileKind} {hs : Sha256sum}
    {bc : Option BlockChain} {t : Nat} {u : String} :
    WellFormed ⟨name, k, ⟨1, hs, bc, false⟩, [], t, u⟩ := by
  constructor
  · intro d hd
    simp at hd
  · exact List.chain'_nil

/-- handle_add_watch_event preserves the invariant. -/
theorem allWF_handleAdd (env : SyncEnv) (B : Nat) (idx : List IndexFile)
    (fs : Fs) (name : String) (h : AllWF idx) :
    AllWF (handleAddWatchEvent env B idx fs name).1 := by
  simp only [handleAddWatchEvent]
  split
  · exact h
  · split
    · exact allWF_createFile h wellFormed_create1
    · rename_i f hget
      split
      · exact h
      · exact allWF_updateFile h
          (wellFormed_bumpTo (h f (getFile_mem hget)) (Nat.lt_succ_self _))

/-- handle_modify_watch_event preserves the invariant. -/
theorem allWF_handleModify (env : SyncEnv) (B : Nat) (idx : List IndexFile)
    (fs : Fs) (name : String) (h : AllWF idx) :
    AllWF (handleModifyWatchEvent env B idx fs name).1 := by
  simp only [handleModifyWatchEvent]
  split
  · split
    · exact h
    · rename_i f hget
      split
      · exact h
      · exact allWF_updateFile h
          (wellFormed_bumpTo (h f (getFile_mem hget)) (Nat.lt_succ_self _))
  · split
    · exact allWF_createFile h wellFormed_create1
    · rename_i f hget
      split
      · exact h
      · exact allWF_updateFile h
          (wellFormed_bumpTo (h f (getFile_mem hget)) (Nat.lt_succ_self _))

/-- handle_delete_watch_event preserves the invariant. -/
theorem allWF_handleDelete (idx : List IndexFile) (name : String)
    (h : AllWF idx) : AllWF (handleDeleteWatchEvent idx name).1 := by
  simp only [handleDeleteWatchEvent]
  split
  · exact h
  · rename_i f hget
    split
    · exact h
    · exact allWF_updateFile h
        (wellFormed_bumpTo (h f (getFile_mem hget)) (Nat.lt_succ_self _))

/-- handle_rename_watch_event preserves the invariant. -/
theorem allWF_handleRename (env : SyncEnv) (B : Nat) (idx : List IndexFile)
    (fs : Fs) (oldName newName : String) (h : AllWF idx) :
    AllWF (handleRenameWatchEvent env B idx fs oldName newName).1 := by
  simp only [handleRenameWatchEvent]
  split
  · split
    · exact h
    · rename_i of hgetOld
      split
      · exact h
      · have h1 : AllWF (updateFile idx (bumpTo of (deletedDetail of))) :=
          allWF_updateFile h
            (wellFormed_bumpTo (h of (getFile_mem hgetOld)) (Nat.lt_succ_self _))
        split
        · exact h1
        · rename_i nf hgetNew
          split
          · exact h1
          · exact allWF_updateFile h1
              (wellFormed_bumpTo (h1 nf (getFile_mem hgetNew)) (Nat.lt_succ_self _))
  · have hstep : AllWF (match getFile idx oldName with
      | none => (idx, ([] : List IndexFile))
      | some of =>
        if of.detail.deleted then (idx, [])
        else
          (updateFile idx (bumpTo of (deletedDetail of)),
            [bumpTo of (deletedDetail of)])).1 := by
      split
      · exact h
      · rename_i of hgetOld
        split
        · exact h
        · exact allWF_updateFile h
            (wellFormed_bumpTo (h of (getFile_mem hgetOld)) (Nat.lt_succ_self _))
    split
    · exact allWF_createFile hstep wellFormed_create1
    · rename_i nf hgetNew
      exact allWF_updateFile hstep
        (wellFormed_bumpTo (hstep nf (getFile_mem hgetNew)) (Nat.lt_succ_self _))

/-- The batch loop of the watch handler preserves the invariant. -/
theorem allWF_handleWatchEventsGo (env : SyncEnv) (B : Nat) (fs : Fs) :
    ∀ (events : List WatchEvent) (idx rumors : List IndexFile), AllWF idx →
      AllWF (handleWatchEventsGo env B fs events idx rumors).1 := by
  intro events
  induction events with
  | nil => intro idx rumors h; exact h
  | cons ev rest ih =>
    intro idx rumors h
    cases ev with
    | add name => exact ih _ _ (allWF_handleAdd env B idx fs name h)
    | modify name => exact ih _ _ (allWF_handleModify env B idx fs name h)
    | rename oldName newName =>
      exact ih _ _ (allWF_handleRename env B idx fs oldName newName h)
    | delete name => exact ih _ _ (allWF_handleDelete idx name h)

/-- handle_rumor preserves the invariant provided the remote rumor itself
has it: the rumor handler only ever persists the received IndexFile
verbatim (by create_file or update_file) or leaves the index unchanged. -/
theorem allWF_handleRumor (env : SyncEnv) (st : SyncState) (remote : IndexFile)
    (h : AllWF st.index) (hr : WellFormed remote) :
    AllWF (handleRumor env st remote).1.index := by
  simp only [handleRumor]
  split
  · simp only [handleRumorNoLocal]
    split
    · exact allWF_createFile h hr
    · split
      · exact h
      · split
        · exact h
        · exact allWF_createFile h hr
  · split
    · simp only [handleRemoteIsLatest]
      split
      · split
        · exact allWF_updateFile h hr
        · split
          · exact h
          · split
            · exact h
            · exact allWF_updateFile h hr
      · split
        · exact h
        · split
          · exact h
          · split
            · exact h
            · exact h
    · split
      · simp only [handleGenEq]
        split
        · exact h
        · split
          · exact h
          · split
            · split
              · split
                · exact h
                · exact allWF_updateFile h hr
              · split
                · exact h
                · split
                  · exact h
                  · exact allWF_updateFile h hr
            · exact h
      · exact h

/-- The rumor batch loop preserves the invariant when every rumor of the
batch has it. -/
theorem allWF_handleRumorsEventGo (env : SyncEnv) (sender : Nat) :
    ∀ (rumors acc : List IndexFile) (st : SyncState), AllWF st.index →
      (∀ r ∈ rumors, WellFormed r) →
      AllWF (handleRumorsEventGo env sender st rumors acc).1.index := by
  intro rumors
  induction rumors with
  | nil =>
    intro acc st h _
    simp only [handleRumorsEventGo]
    split <;> exact h
  | cons r rest ih =>
    intro acc st h hr
    simp only [handleRumorsEventGo]
    have h1 := allWF_handleRumor env st r h (hr r (List.mem_cons_self r rest))
    split
    · rename_i st' e heq
      rw [heq] at h1
      exact h1
    · rename_i st' isNew heq
      rw [heq] at h1
      exact ih _ st' h1 (fun x hx => hr x (List.mem_cons_of_mem r hx))

/-- The delete loop of sync-all preserves the invariant. -/
theorem allWF_syncAllDeleteLoop (env : SyncEnv) :
    ∀ (names : List String) (idx : List IndexFile), AllWF idx →
      ∀ r, syncAllDeleteLoop env idx names = .ok r → AllWF r := by
  intro names
  induction names with
  | nil =>
    intro idx h r hr
    simp only [syncAllDeleteLoop] at hr
    cases hr
    exact h
  | cons name rest ih =>
    intro idx h r hr
    simp only [syncAllDeleteLoop] at hr
    split at hr
    · cases hr
    · rename_i f hget
      split at hr
      · exact ih idx h r hr
      · refine ih _ ?_ r hr
        exact allWF_updateFile h
          (wellFormed_bumpTo (h f (getFile_mem hget)) (Nat.lt_succ_self _))

/-- The new loop of sync-all preserves the invariant. -/
theorem allWF_syncAllNewLoop (env : SyncEnv) (B : Nat) (fs : Fs) :
    ∀ (names : List String) (idx : List IndexFile), AllWF idx →
      ∀ r, syncAllNewLoop env B fs idx names = .ok r → AllWF r := by
  intro names
  induction names with
  | nil =>
    intro idx h r hr
    simp only [syncAllNewLoop] at hr
    cases hr
    exact h
  | cons name rest ih =>
    intro idx h r hr
    simp only [syncAllNewLoop] at hr
    split at hr
    · cases hr
    · split at hr
      · rename_i f hget
        split at hr
        · exact ih idx h r hr
        · refine ih _ ?_ r hr
          exact allWF_updateFile h
            (wellFormed_bumpTo (h f (getFile_mem hget)) (Nat.lt_succ_self _))
      · refine ih _ ?_ r hr
        exact allWF_createFile h wellFormed_create1

/-- The exists loop of sync-all preserves the invariant. -/
theorem allWF_syncAllExistsLoop (env : SyncEnv) (B : Nat) (fs : Fs) :
    ∀ (names : List String) (idx : List IndexFile), AllWF idx →
      ∀ r, syncAllExistsLoop env B fs idx names = .ok r → AllWF r := by
  intro names
  induction names with
  | nil =>
    intro idx h r hr
    simp only [syncAllExistsLoop] at hr
    cases hr
    exact h
  | cons name rest ih =>
    intro idx h r hr
    simp only [syncAllExistsLoop] at hr
    split at hr
    · cases hr
    · split at hr
      · cases hr
      · rename_i f hget
        split at hr
        · exact ih idx h r hr
        · refine ih _ ?_ r hr
          exact allWF_updateFile h
            (wellFormed_bumpTo (h f (getFile_mem hget)) (Nat.lt_succ_self _))

/-- handle_sync_all_event preserves the invariant. -/
theorem allWF_handleSyncAll (env : SyncEnv) (B : Nat) (st : SyncState)
    (h : AllWF st.index) : AllWF (handleSyncAllEvent env B st).1.index := by
  simp only [handleSyncAllEvent]
  split
  · exact h
  · rename_i i1 hd
    have h1 := allWF_syncAllDeleteLoop env _ _ h i1 hd
    split
    · exact h
    · rename_i i2 hn
      have h2 := allWF_syncAllNewLoop env B st.fs _ _ h1 i2 hn
      split
      · exact h
      · rename_i i3 he
        exact allWF_syncAllExistsLoop env B st.fs _ _ h2 i3 he

/-- The controller loop preserves the invariant given well-formed incoming
rumors. -/
theorem allWF_runLoop (env : SyncEnv) (B : Nat) :
    ∀ (events : List ControllerEvent) (st : SyncState) (sent : List SendRumors),
      AllWF st.index →
      (∀ ev ∈ events, ∀ r ∈ eventRumors ev, WellFormed r) →
      AllWF (runLoop env B st events sent).1.index := by
  intro events
  induction events with
  | nil => intro st sent h _; exact h
  | cons ev rest ih =>
    intro st sent h hev
    have hev' : ∀ e ∈ rest, ∀ r ∈ eventRumors e, WellFormed r :=
      fun e he => hev e (List.mem_cons_of_mem ev he)
    cases ev with
    | watch ws =>
      exact ih _ _ (allWF_handleWatchEventsGo env B st.fs ws st.index [] h) hev'
    | rumors sender rumors =>
      have hb := allWF_handleRumorsEventGo env sender rumors [] st h
        (fun r hrm => hev _ (List.mem_cons_self _ _) r hrm)
      simp only [runLoop]
      split
      · rename_i st' e heq
        have heq' : handleRumorsEventGo env sender st rumors [] =
          (st', BatchResult.err e) := heq
        rw [heq'] at hb
        exact hb
      · rename_i st' msg heq
        refine ih _ _ ?_ hev'
        have heq' : handleRumorsEventGo env sender st rumors [] =
          (st', BatchResult.ok msg) := heq
        rw [heq'] at hb
        exact hb
    | syncAll =>
      have hs := allWF_handleSyncAll env B st h
      simp only [runLoop]
      split
      · rename_i st' e heq
        rw [heq] at hs
        exact hs
      · rename_i st' msg heq
        refine ih _ _ ?_ hev'
        rw [heq] at hs
        exact hs

/-- C9: every IndexFile held by the index after the controller has
processed any sequence of events satisfies the persisted invariant (gen
strictly above every previous gen, previous details ascending by gen, no
previous detail with a chain), provided the starting index and the rumors
carried by the events satisfy it. The proviso is what the claim can mean
for the rumor path: rumor application persists the received IndexFile
verbatim, so it preserves the invariant exactly when the rumor has it,
which holds for rumors produced by peers running these same operations. -/
theorem c9_persisted_invariant (env : SyncEnv) (B : Nat) (st : SyncState)
    (events : List ControllerEvent)
    (hidx : AllWF st.index)
    (hev : ∀ ev ∈ events, ∀ r ∈ eventRumors ev, WellFormed r) :
    AllWF (runController env B st events).1.index :=
  allWF_runLoop env B events st [] hidx hev

/-- Witness for c9_persisted_invariant: one entry in the index, a delete
watch event followed by a sync-all. -/
theorem c9_persisted_invariant_witness :
    AllWF [entryA] ∧
      (∀ ev ∈ [ControllerEvent.watch [WatchEvent.delete "a"], ControllerEvent.syncAll],
        ∀ r ∈ eventRumors ev, WellFormed r) ∧
      AllWF (runController envIdle BLOCK_SIZE ⟨[entryA], []⟩
        [ControllerEvent.watch [WatchEvent.delete "a"], ControllerEvent.syncAll]).1.index :=
  ⟨by decide, by decide,
    c9_persisted_invariant envIdle BLOCK_SIZE ⟨[entryA], []⟩
      [ControllerEvent.watch [WatchEvent.delete "a"], ControllerEvent.syncAll]
      (by decide) (by decide)⟩
